import Mathlib

/-!
Verification of the pyxlmapper repository: a shallow embedding of
`src/pyxlmapper/util.py`, `mapper.py` and `formatters.py` into Lean, together
with theorems settling the specification claims.

Conventions:
* Python `None` cell values are the `CellValue.blank` constructor.
* Python exceptions (IndexError, TypeError, AssertionError, ValueError,
  RecursionError) are modelled by `Option`/failure values (`none` or an
  explicit error constructor).
* Machine floats are not modelled: a float cell carries its `str()` rendering
  (the only thing the code ever does with a float is `str(value)`).
-/

set_option maxRecDepth 8000

namespace Pyxl

/-! ### util.py -/

/-- Characters stripped by Python `str.strip()` (ASCII fragment). -/
def pyWs (c : Char) : Bool :=
  c = ' ' || c = '\t' || c = '\n' || c = '\r' || c = '\x0b' || c = '\x0c'

/-- Python `s.strip()` on ASCII strings. -/
def pyStrip (s : String) : String :=
  String.mk (((s.data.dropWhile pyWs).reverse.dropWhile pyWs).reverse)

/-- Python `s.replace("\n", " ")`. -/
def replaceNL (s : String) : String :=
  String.mk (s.data.map (fun c => if c = '\n' then ' ' else c))

/-- A spreadsheet cell value after merged-cell unwrapping: blank (`None`),
a string, an int, or a float carried as its `str()` rendering. -/
inductive CellValue where
  | blank
  | str (s : String)
  | int (n : Int)
  | float (r : String)
deriving DecidableEq, Repr

/-- `util.normalize`: strings get newlines replaced by spaces and are
stripped; floats are rendered via `str`; everything else (including ints and
blanks) is returned unchanged. -/
def normalize : CellValue → CellValue
  | .str s => .str (pyStrip (replaceNL s))
  | .float r => .str r
  | v => v

/-- Python `\d` on ASCII. -/
def isDigitC (c : Char) : Bool := c.isDigit

/-- Python `\w` on ASCII: letters, digits, underscore. -/
def isWordC (c : Char) : Bool := c.isAlphanum || c = '_'

/-- Take the maximal run of characters satisfying `p`; return (run, rest). -/
def takeRun (p : Char → Bool) : List Char → List Char × List Char
  | [] => ([], [])
  | c :: rest =>
    if p c then
      let r := takeRun p rest
      (c :: r.1, r.2)
    else ([], c :: rest)

theorem takeRun_snd_length (p : Char → Bool) :
    ∀ l : List Char, (takeRun p l).2.length ≤ l.length := by
  intro l
  induction l with
  | nil => simp [takeRun]
  | cons c rest ih =>
    by_cases h : p c
    · simp [takeRun, h]
      exact Nat.le_succ_of_le ih
    · simp [takeRun, h]

/-- Tokens of `re.findall(r"(\d+|\w+)", value)`: at each position the `\d+`
branch is tried first (so a digit run is one token even inside a word), then
`\w+`; other characters are skipped. The fuel argument only serves structural
termination; every step consumes at least one character, so any fuel above
the list length is never exhausted. -/
def tokAux : Nat → List Char → List (List Char)
  | 0, _ => []
  | _, [] => []
  | fuel + 1, c :: rest =>
    if isDigitC c then
      (c :: (takeRun isDigitC rest).1) :: tokAux fuel (takeRun isDigitC rest).2
    else if isWordC c then
      (c :: (takeRun isWordC rest).1) :: tokAux fuel (takeRun isWordC rest).2
    else tokAux fuel rest

def tokenize (s : String) : List String :=
  (tokAux (s.data.length + 1) s.data).map String.mk

/-- `util.capfirst`. -/
def capfirst (s : String) : String :=
  match s.data with
  | [] => ""
  | c :: rest => String.mk (c.toUpper :: rest)

/-- `util.numbers`. -/
def numbers : List String :=
  ["zero", "one", "two", "three", "four", "five", "six", "seven", "eight", "nine"]

/-- `util.stringify_int`: spell out the first digit, keep the rest. -/
def stringify_int (num : String) : String :=
  match num.data with
  | [] => ""
  | c :: rest => numbers.getD (c.toNat - '0'.toNat) "" ++ String.mk rest

/-- `util.class_name_from_str`. Returns `none` when the label yields zero
tokens (Python raises `IndexError` on `matches[0]`). -/
def class_name_from_str (value : String) : Option String :=
  match tokenize value with
  | [] => none
  | head :: rest =>
    let override_head :=
      if (head.data.head?.map isDigitC).getD false then some (stringify_int head)
      else none
    let pieces := (override_head.getD head) :: rest
    some (String.join (pieces.map capfirst))

/-- `util.camel_to_snake`: insert `_` before every uppercase letter that
follows a lowercase letter or digit, or that is not at the start and is
followed by a lowercase letter; then lowercase everything. -/
def camelMark (prev : Option Char) (c : Char) (next : Option Char) : Bool :=
  c.isUpper &&
    ((match prev with
      | some p => p.isLower || p.isDigit
      | none => false)
     || (prev.isSome && (next.map Char.isLower).getD false))

def camelAux : Option Char → List Char → List Char
  | _, [] => []
  | prev, c :: rest =>
    (if camelMark prev c rest.head? then ['_', c] else [c]) ++ camelAux (some c) rest

def camel_to_snake (s : String) : String :=
  String.mk ((camelAux none s.data).map Char.toLower)

end Pyxl

namespace Pyxl

/-! ### InternalConfig (mapper.py) -/

/-- `InternalConfig`: the per-node config container. `_overrides` is the set
of explicitly set field names, modelled as a list. -/
structure InternalConfig where
  raw_name : String
  offset : Int × Int
  input_name : String := ""
  output_name : String := ""
  optional : Bool := false
  skip : Bool := false
  overrides : List String := []
deriving DecidableEq, Repr

/-- `InternalConfig.__eq__`: compares `raw_name`, `input_name`, `output_name`
only (not offset, not overrides). -/
def InternalConfig.eqPy (a b : InternalConfig) : Bool :=
  a.raw_name == b.raw_name && a.input_name == b.input_name &&
    a.output_name == b.output_name

/-- `InternalConfig.from_input_name`: build a config for a header label.
`none` models the `IndexError` escaping from `class_name_from_str` when the
label has no tokens. -/
def InternalConfig.from_input_name (input_name : String) : Option InternalConfig :=
  (class_name_from_str input_name).map (fun raw_name =>
    { raw_name := raw_name
      output_name := camel_to_snake raw_name
      input_name := input_name
      offset := (0, 0)
      overrides := if raw_name ≠ input_name then ["input_name"] else [] })

/-! Sanity anchors mirroring `tests/test_util.py`. -/

example : class_name_from_str "Internal" = some "Internal" := by rfl
example : class_name_from_str "USB 2.0 header" = some "USB20Header" := by rfl
example : class_name_from_str "4-pin  RGB 12V" = some "FourPinRGB12V" := by rfl
example : class_name_from_str "23one" = some "Two3One" := by rfl
example : camel_to_snake "PhysicalX1X4" = "physical_x1_x4" := by rfl
example : camel_to_snake "USBCTotal" = "usbc_total" := by rfl
example : camel_to_snake "USB20Header" = "usb20_header" := by rfl
example : normalize (.str " a b\nc ") = .str "a b c" := by rfl
example : normalize (.int 4) = .int 4 := by rfl

/-! ### Claim C7 -/

/-- C7: turning a raw header label into a field descriptor fails exactly when
the label yields zero word/digit tokens (the failure signal — an `IndexError`
in the source, the spec's MalformedLabelError — is the `none` result); for
every label with at least one token it succeeds. -/
theorem from_input_name_fails_iff_no_tokens (s : String) :
    (InternalConfig.from_input_name s).isSome ↔ tokenize s ≠ [] := by
  unfold InternalConfig.from_input_name class_name_from_str
  cases h : tokenize s <;> simp [h]

/-! ### Claim C8 -/

/-- C8 counterexample: an integer cell value is returned unchanged, not as
its textual string form (matches `tests/test_util.py::test_normalize`). -/
theorem normalize_int_unchanged_counterexample :
    normalize (CellValue.int 3) = CellValue.int 3 ∧
      normalize (CellValue.int 3) ≠ CellValue.str "3" := by
  exact ⟨rfl, by decide⟩

theorem head_dropWhile_not (p : Char → Bool) :
    ∀ l : List Char, (((l.dropWhile p).head?.map p).getD false) = false := by
  intro l
  induction l with
  | nil => simp
  | cons c rest ih =>
    by_cases h : p c
    · simpa [List.dropWhile, h] using ih
    · simp [List.dropWhile, h]

theorem pyStrip_head_not_ws (x : String) :
    (((pyStrip x).data.head?.map pyWs).getD false) = false := by
  show ((((x.data.dropWhile pyWs).reverse.dropWhile pyWs).reverse.head?.map pyWs).getD false) = false
  rw [List.head?_reverse]
  rcases hsuf : (x.data.dropWhile pyWs).reverse.dropWhile pyWs with _ | ⟨c, rest⟩
  · simp
  · obtain ⟨pre, hpre⟩ := List.dropWhile_suffix (l := (x.data.dropWhile pyWs).reverse) pyWs
    rw [hsuf] at hpre
    have h1 : (c :: rest).getLast? = (pre ++ c :: rest).getLast? := by
      rw [List.getLast?_append_of_ne_nil _ (by simp)]
    rw [h1, hpre, List.getLast?_reverse]
    exact head_dropWhile_not pyWs x.data

theorem pyStrip_getLast_not_ws (x : String) :
    (((pyStrip x).data.getLast?.map pyWs).getD false) = false := by
  show ((((x.data.dropWhile pyWs).reverse.dropWhile pyWs).reverse.getLast?.map pyWs).getD false) = false
  rw [List.getLast?_reverse]
  exact head_dropWhile_not pyWs _

theorem pyStrip_mem (x : String) {c : Char} (h : c ∈ (pyStrip x).data) :
    c ∈ x.data := by
  have h1 : c ∈ (x.data.dropWhile pyWs).reverse.dropWhile pyWs := by
    simpa [pyStrip] using h
  have h2 := (List.dropWhile_suffix (l := (x.data.dropWhile pyWs).reverse) pyWs).sublist.subset h1
  have h3 : c ∈ x.data.dropWhile pyWs := by simpa using h2
  exact (List.dropWhile_suffix (l := x.data) pyWs).sublist.subset h3

/-- C8 amended: strings are normalized by replacing newlines with spaces and
stripping surrounding whitespace (the result contains no newline and has no
leading/trailing whitespace); floating-point values render via their textual
form; integer and blank values are returned unchanged. -/
theorem normalize_amended :
    (∀ s, ∃ t, normalize (CellValue.str s) = CellValue.str t ∧
        (∀ c ∈ t.data, c ≠ '\n') ∧
        ((t.data.head?.map pyWs).getD false) = false ∧
        ((t.data.getLast?.map pyWs).getD false) = false) ∧
    (∀ r, normalize (CellValue.float r) = CellValue.str r) ∧
    (∀ n : Int, normalize (CellValue.int n) = CellValue.int n) ∧
    normalize CellValue.blank = CellValue.blank := by
  refine ⟨fun s => ⟨pyStrip (replaceNL s), rfl, ?_, pyStrip_head_not_ws _, pyStrip_getLast_not_ws _⟩,
    fun r => rfl, fun n => rfl, rfl⟩
  intro c hc
  have h1 : c ∈ (replaceNL s).data := pyStrip_mem _ hc
  simp only [replaceNL, List.mem_map] at h1
  obtain ⟨a, _, ha⟩ := h1
  intro hne
  rw [hne] at ha
  by_cases h : a = '\n' <;> simp [h] at ha

end Pyxl

namespace Pyxl

/-! ### read_header (mapper.py) -/

/-- A worksheet after merged-cell unwrapping: `g row col` is the unwrapped
cell value at 1-indexed coordinates. -/
def Grid := Int → Int → CellValue

/-- `mapper.collapse_levels`: remove consecutive duplicate levels. -/
def collapse_levels (levels : List CellValue) : List CellValue :=
  levels.foldl (fun collapsed level =>
    if collapsed.getLast? = some level then collapsed else collapsed ++ [level]) []

/-- One column of `read_header`: normalized non-blank values of rows
`1..height` (plus the row offset), consecutive duplicates collapsed. -/
def colLevels (g : Grid) (height : Nat) (offR offC : Int) (col : Nat) : List CellValue :=
  collapse_levels ((List.range' 1 height).filterMap (fun level =>
    match normalize (g ((level : Int) + offR) ((col : Int) + offC)) with
    | .blank => Option.none
    | v => some v))

/-- The `read_header` loop with an explicit numeric `width`. After yielding a
column the loop breaks when `col_index > width`, and otherwise also breaks
when the column's collected list is empty (this second break is NOT guarded
by the "auto" mode). Fuel only serves structural termination; `W + 1` is
never exhausted. -/
def rhAux (g : Grid) (height : Nat) (offR offC : Int) (W : Nat) :
    Nat → Nat → List (List CellValue)
  | 0, _ => []
  | fuel + 1, col =>
    let levels := colLevels g height offR offC col
    levels :: (if W < col + 1 then []
      else if levels.isEmpty then []
      else rhAux g height offR offC W fuel (col + 1))

/-- `mapper.read_header` with an explicit numeric width. -/
def read_header_explicit (g : Grid) (height W : Nat) (offR offC : Int) :
    List (List CellValue) := rhAux g height offR offC W (W + 1) 1

/-! ### Claim C4 -/

/-- Header grid with a blank column 2: row 1 holds "A", blank, "C". -/
def gC4 : Grid := fun r c =>
  if r = 1 && c = 1 then .str "A"
  else if r = 1 && c = 3 then .str "C"
  else .blank

/-- C4 counterexample: with explicit width 3 over a header whose column 2 is
blank, the reader stops early and produces 2 label lists, not 3. -/
theorem read_header_explicit_stops_early_counterexample :
    read_header_explicit gC4 1 3 0 0 = [[.str "A"], []] ∧
      (read_header_explicit gC4 1 3 0 0).length ≠ 3 := by
  exact ⟨rfl, by decide⟩

theorem rhAux_all_nonempty (g : Grid) (height : Nat) (offR offC : Int) (W : Nat) :
    ∀ fuel col, 1 ≤ col → col ≤ W → W + 1 - col ≤ fuel →
      (∀ c, col ≤ c → c < W → colLevels g height offR offC c ≠ []) →
      rhAux g height offR offC W fuel col =
        (List.range' col (W + 1 - col)).map (colLevels g height offR offC) := by
  intro fuel
  induction fuel with
  | zero => intro col h1 h2 h3 _; omega
  | succ fuel ih =>
    intro col h1 h2 h3 hne
    rcases Nat.lt_or_ge col W with hlt | hge
    · have hW : ¬ W < col + 1 := by omega
      have hcol : colLevels g height offR offC col ≠ [] := hne col (Nat.le_refl col) hlt
      have hrec := ih (col + 1) (by omega) (by omega) (by omega)
        (fun c hc1 hc2 => hne c (by omega) hc2)
      have hrange : W + 1 - col = (W - col) + 1 := by omega
      rw [rhAux]
      simp only [hW, if_false, List.isEmpty_iff, hcol, if_false]
      rw [hrec, hrange, List.range'_succ]
      have : W + 1 - (col + 1) = W - col := by omega
      rw [this, List.map_cons]
    · have hW : W < col + 1 := by omega
      rw [rhAux]
      simp only [hW, if_true]
      have h1' : W + 1 - col = 1 := by omega
      rw [h1']
      rfl

theorem rhAux_empty_at (g : Grid) (height : Nat) (offR offC : Int) (W : Nat) :
    ∀ fuel col e, 1 ≤ col → col ≤ e → e < W → e + 1 - col ≤ fuel →
      (∀ c, col ≤ c → c < e → colLevels g height offR offC c ≠ []) →
      colLevels g height offR offC e = [] →
      rhAux g height offR offC W fuel col =
        (List.range' col (e + 1 - col)).map (colLevels g height offR offC) := by
  intro fuel
  induction fuel with
  | zero => intro col e h1 h2 h3 h4 _ _; omega
  | succ fuel ih =>
    intro col e h1 h2 h3 h4 hne hempty
    rcases Nat.lt_or_ge col e with hlt | hge
    · have hW : ¬ W < col + 1 := by omega
      have hcol : colLevels g height offR offC col ≠ [] := hne col (Nat.le_refl col) hlt
      have hrec := ih (col + 1) e (by omega) (by omega) h3 (by omega)
        (fun c hc1 hc2 => hne c (by omega) hc2)
        hempty
      have hrange : e + 1 - col = (e - col) + 1 := by omega
      rw [rhAux]
      simp only [hW, if_false, List.isEmpty_iff, hcol, if_false]
      rw [hrec, hrange, List.range'_succ]
      have : e + 1 - (col + 1) = e - col := by omega
      rw [this, List.map_cons]
    · have hcole : col = e := by omega
      subst hcole
      have hW : ¬ W < col + 1 := by omega
      rw [rhAux]
      simp only [hW, if_false, List.isEmpty_iff, hempty, if_true]
      have : col + 1 - col = 1 := by omega
      rw [this]
      simp [List.range'_succ, hempty]

/-- C4 amended: with an explicit numeric width `W` the header reader stops
after `W` columns OR at the first column whose collected label list is empty,
whichever comes first — the empty-column stop is not exclusive to "auto"
mode. It yields exactly `W` per-column lists (columns `1..W`, left to right)
only when no column before the `W`-th is empty; if the first empty column `e`
comes before `W`, it yields the `e` lists of columns `1..e` (the empty list
included). -/
theorem read_header_explicit_amended (g : Grid) (height : Nat) (offR offC : Int) (W : Nat) :
    (1 ≤ W → (∀ c, 1 ≤ c → c < W → colLevels g height offR offC c ≠ []) →
      read_header_explicit g height W offR offC =
        (List.range' 1 W).map (colLevels g height offR offC) ∧
      (read_header_explicit g height W offR offC).length = W) ∧
    (∀ e, 1 ≤ e → e < W →
      (∀ c, 1 ≤ c → c < e → colLevels g height offR offC c ≠ []) →
      colLevels g height offR offC e = [] →
      read_header_explicit g height W offR offC =
        (List.range' 1 e).map (colLevels g height offR offC) ∧
      (read_header_explicit g height W offR offC).length = e) := by
  constructor
  · intro hW hne
    have h := rhAux_all_nonempty g height offR offC W (W + 1) 1 (Nat.le_refl 1) hW
      (by omega) hne
    refine ⟨h, ?_⟩
    rw [read_header_explicit, h]
    simp
  · intro e h1 h2 hne hempty
    have h := rhAux_empty_at g height offR offC W (W + 1) 1 e (Nat.le_refl 1) h1 h2
      (by omega) hne hempty
    refine ⟨h, ?_⟩
    rw [read_header_explicit, h]
    simp

/-- All-nonempty header for the C4 witness. -/
def gC4w : Grid := fun r c =>
  if r = 1 && c = 1 then .str "A"
  else if r = 1 && c = 2 then .str "B"
  else .blank

/-- Witness for `read_header_explicit_amended` at concrete inputs: a 2-wide
nonempty header yields 2 lists, and `gC4` (empty column 2) with width 3
yields 2 lists. -/
theorem read_header_explicit_amended_witness :
    (read_header_explicit gC4w 1 2 0 0).length = 2 ∧
      (read_header_explicit gC4 1 3 0 0).length = 2 :=
  ⟨((read_header_explicit_amended gC4w 1 0 0 2).1 (by decide)
      (by decide)).2,
    ((read_header_explicit_amended gC4 1 0 0 3).2 2 (by decide) (by decide)
      (by decide) (by decide)).2⟩

end Pyxl

namespace Pyxl

/-! ### MapperNode as a pure tree, merge and infer (mapper.py) -/

/-- `MapperNode` viewed as a pure tree: the Python `parent` back-reference is
implicit (a node is addressed by its path of child indices from the root). -/
inductive MapperNode where
  | mk (config : InternalConfig) (children : List MapperNode)
deriving Repr

def MapperNode.config : MapperNode → InternalConfig
  | .mk c _ => c

def MapperNode.children : MapperNode → List MapperNode
  | .mk _ cs => cs

/-- Fueled descent to the rightmost descendant (`MapperNode.last`). Once the
descent has reached a childless node, adding fuel does not change the result
(`lastF_stable`), so any fuel above the tree depth computes `last` exactly. -/
def lastF : Nat → MapperNode → MapperNode
  | 0, t => t
  | fuel + 1, t =>
    match t.children.getLast? with
    | Option.none => t
    | some x => lastF fuel x

/-- Where `merge` leaves its `first_divergent` result: Python `None`, a node
inside the updated receiver (at the given path), or the absorbed chain node
returned in the pure-carry case (which is not part of the tree and is never
used by `infer` in that case). -/
inductive MergeRef where
  | nullRef
  | inTree (p : List Nat)
  | chainNode
deriving Repr, DecidableEq

/-- Replace the final element of a list. -/
def replaceLast : List MapperNode → MapperNode → List MapperNode
  | [], _ => []
  | [_], x => [x]
  | y :: z :: ys, x => y :: replaceLast (z :: ys) x

def MergeRef.shift (i : Nat) : MergeRef → MergeRef
  | .inTree p => .inTree (i :: p)
  | r => r

/-- `mapper.merge`. `isRoot` tracks `reciever.is_root` (true only for the
top-level call from `infer`). Failure (`none`) models the `AssertionError`
for a multi-branch chain, the `IndexError` on `reciever.children[-1]` for an
empty non-root receiver, and fuel exhaustion (which never occurs for fuel
above the recursion depth). -/
def merge : Nat → Bool → MapperNode → MapperNode →
    Option (MapperNode × MergeRef × Nat)
  | 0, _, _, _ => Option.none
  | fuel + 1, isRoot, reciever, other =>
    if other.children.length > 1 then Option.none
    else if isRoot && reciever.children.isEmpty then
      some (.mk reciever.config (reciever.children ++ [other]), .nullRef, 0)
    else
      match reciever.children.getLast? with
      | Option.none => Option.none
      | some last_child =>
        if last_child.config.eqPy other.config then
          match other.children.getLast? with
          | some other_last_child =>
            (merge fuel false last_child other_last_child).map (fun r =>
              (.mk reciever.config (replaceLast reciever.children r.1),
                r.2.1.shift (reciever.children.length - 1), r.2.2))
          | Option.none => some (reciever, .chainNode, 1)
        else
          some (.mk reciever.config (reciever.children ++ [other]),
            .inTree [reciever.children.length], 0)

/-- The config of the node at a child-index path. -/
def configAt : MapperNode → List Nat → Option InternalConfig
  | t, [] => some t.config
  | t, i :: p =>
    match t.children.get? i with
    | some c => configAt c p
    | Option.none => Option.none

/-- Apply `f` to the config of the node at a child-index path. -/
def updateCfgAt : MapperNode → List Nat → (InternalConfig → InternalConfig) →
    Option MapperNode
  | .mk cfg cs, [], f => some (.mk (f cfg) cs)
  | .mk cfg cs, i :: p, f =>
    match cs.get? i with
    | some c => (updateCfgAt c p f).map (fun c' => .mk cfg (cs.set i c'))
    | Option.none => Option.none

/-- Python `set.add` on the `_overrides` list model. -/
def addOverride (l : List String) (s : String) : List String :=
  if s ∈ l then l else l ++ [s]

/-- The linear chain `infer` builds from one column's label configs
(`parent.root` after linking them top-down). `none` for an empty column. -/
def buildChain : List InternalConfig → Option MapperNode
  | [] => Option.none
  | [c] => some (.mk c [])
  | c :: d :: rest => (buildChain (d :: rest)).map (fun sub => .mk c [sub])

/-- One iteration of the `infer` loop over one column's label list `levels`,
on the state (current root tree, `contextual_offset`). `none` models any of
the crashes that can escape the loop body (`IndexError` in
`class_name_from_str`, `AssertionError`/`IndexError` in `merge`,
`AttributeError` on a `None` divergent node). -/
def inferStep (fuel : Nat) (st : MapperNode × Nat) (levels : List String) :
    Option (MapperNode × Nat) :=
  match levels.mapM InternalConfig.from_input_name with
  | Option.none => Option.none
  | some configs =>
    match buildChain configs with
    | Option.none => some st
    | some chain =>
      match merge fuel true st.1 chain with
      | Option.none => Option.none
      | some (t', ref, carry) =>
        let acc := st.2 + carry
        if acc > 0 ∧ carry = 0 then
          match ref with
          | .inTree p =>
            (updateCfgAt t' p (fun c =>
              { c with
                  offset := ((lastF fuel t').config.offset.1,
                    (lastF fuel t').config.offset.2 + (acc : Int)),
                  overrides := addOverride c.overrides "offset" })).map
              (fun t'' => (t'', 0))
          | _ => Option.none
        else some (t', acc)

/-- `mapper.infer` as a fold of `inferStep` over the per-column label lists
(the output of the header reader), starting from the root node. -/
def infer (fuel : Nat) (name : String) (offset : Int × Int)
    (columns : List (List String)) : Option MapperNode :=
  let root_config : InternalConfig :=
    { raw_name := name, offset := offset,
      overrides := if offset ≠ (0, 0) then ["offset"] else [] }
  (columns.foldlM (inferStep fuel) (MapperNode.mk root_config [], 0)).map
    Prod.fst

end Pyxl

namespace Pyxl

/-! ### Lemmas about merge/inferStep (for C1, C5) -/

theorem replaceLast_ne_nil (cs : List MapperNode) (x : MapperNode) (h : cs ≠ []) :
    replaceLast cs x ≠ [] := by
  match cs with
  | [] => exact absurd rfl h
  | [_] => simp [replaceLast]
  | y :: z :: ys => simp [replaceLast]

theorem getLast?_replaceLast (cs : List MapperNode) (x : MapperNode) (h : cs ≠ []) :
    (replaceLast cs x).getLast? = some x := by
  match cs with
  | [] => exact absurd rfl h
  | [_] => simp [replaceLast]
  | y :: z :: ys =>
    have ih := getLast?_replaceLast (z :: ys) x (by simp)
    simp only [replaceLast]
    rcases hl : replaceLast (z :: ys) x with _ | ⟨a, l'⟩
    · exact absurd hl (replaceLast_ne_nil _ _ (by simp))
    · rw [hl] at ih
      rw [List.getLast?_cons_cons]
      exact ih

theorem get?_replaceLast (cs : List MapperNode) (x : MapperNode) (h : cs ≠ []) :
    (replaceLast cs x).get? (cs.length - 1) = some x := by
  match cs with
  | [] => exact absurd rfl h
  | [_] => simp [replaceLast]
  | y :: z :: ys =>
    have ih := get?_replaceLast (z :: ys) x (by simp)
    simp only [replaceLast, List.length_cons]
    have hlen : z :: ys ≠ [] := by simp
    show (y :: replaceLast (z :: ys) x).get? ((z :: ys).length + 1 - 1) = some x
    have : (z :: ys).length + 1 - 1 = ((z :: ys).length - 1) + 1 := by
      simp [List.length_cons]
    rw [this]
    simpa using ih

theorem lastF_mk_nil (k : Nat) (c : InternalConfig) :
    lastF k (.mk c []) = .mk c [] := by
  cases k with
  | zero => rfl
  | succ k => rfl

/-- On a zero-offset chain built by `buildChain`, wherever the fueled
rightmost descent lands on a childless node, that node's offset is (0, 0). -/
theorem lastF_buildChain_offset :
    ∀ (cfgs : List InternalConfig) (ch : MapperNode),
      buildChain cfgs = some ch → (∀ c ∈ cfgs, c.offset = (0, 0)) →
      ∀ k, (lastF k ch).children.isEmpty = true →
        (lastF k ch).config.offset = (0, 0) := by
  intro cfgs
  induction cfgs with
  | nil => intro ch h; simp [buildChain] at h
  | cons c rest ih =>
    intro ch h hz k hk
    match rest, h with
    | [], h =>
      have hch : ch = .mk c [] := by
        simpa [buildChain] using h.symm
      subst hch
      rw [lastF_mk_nil] at hk ⊢
      exact hz c (by simp)
    | r :: rs, h =>
      rw [buildChain] at h
      rcases Option.map_eq_some'.mp h with ⟨sub, hsub, hch⟩
      subst hch
      cases k with
      | zero => simp [lastF, MapperNode.children] at hk
      | succ k =>
        have hstep : lastF (k + 1) (.mk c [sub]) = lastF k sub := by
          simp [lastF, MapperNode.children]
        rw [hstep] at hk ⊢
        exact ih sub hsub (fun d hd => hz d (by simp [hd])) k hk

end Pyxl

namespace Pyxl

/-- After a successful `merge` with carry 0 of a zero-offset chain (built by
`buildChain`), the rightmost descendant of the updated tree is the chain's
deepest node, so wherever the fueled rightmost descent reaches a childless
node its offset is (0, 0). -/
theorem merge_divergent_last_offset :
    ∀ (fuel : Nat) (r : Bool) (t : MapperNode) (cfgs : List InternalConfig)
      (ch t' : MapperNode) (ref : MergeRef),
      buildChain cfgs = some ch → (∀ c ∈ cfgs, c.offset = (0, 0)) →
      merge fuel r t ch = some (t', ref, 0) →
      ∀ k, (lastF k t').children.isEmpty = true →
        (lastF k t').config.offset = (0, 0) := by
  intro fuel
  induction fuel with
  | zero =>
    intro r t cfgs ch t' ref _ _ h
    simp [merge] at h
  | succ fuel ih =>
    intro r t cfgs ch t' ref hbc hz h k hk
    obtain ⟨tcfg, tcs⟩ := t
    rw [merge] at h
    simp only [MapperNode.children, MapperNode.config] at h
    split at h
    · cases h
    split at h
    · -- attach to the empty root
      rename_i hroot
      have hemp : tcs = [] := by
        rcases Bool.and_eq_true_iff.mp hroot with ⟨_, hb⟩
        exact List.isEmpty_iff.mp hb
      simp only [Option.some.injEq, Prod.mk.injEq] at h
      obtain ⟨ht', _, _⟩ := h
      rw [← ht', hemp] at hk ⊢
      cases k with
      | zero => simp [lastF, MapperNode.children] at hk
      | succ k =>
        have hstep :
            lastF (k + 1) (MapperNode.mk tcfg ([] ++ [ch])) = lastF k ch := by
          rw [lastF]
          simp [MapperNode.children]
        rw [hstep] at hk ⊢
        exact lastF_buildChain_offset cfgs ch hbc hz k hk
    split at h
    · cases h
    rename_i lc hL
    have hcs : tcs ≠ [] := by
      intro hh; rw [hh] at hL; cases hL
    split at h
    · -- configs equal: conversion
      split at h
      · -- chain has a child: recurse into the inner merge
        rename_i heqPy oc hoc
        rcases Option.map_eq_some'.mp h with ⟨⟨lc', ref', carry'⟩, hinner, heq2⟩
        simp only [Prod.mk.injEq] at heq2
        obtain ⟨ht', href, hcarry⟩ := heq2
        rw [hcarry] at hinner
        match cfgs, hbc with
        | [c], hbc =>
          have hch : ch = .mk c [] := by simpa [buildChain] using hbc.symm
          rw [hch] at hoc
          simp [MapperNode.children] at hoc
        | c :: d :: rest, hbc =>
          rw [buildChain] at hbc
          rcases Option.map_eq_some'.mp hbc with ⟨sub0, hsub, hch⟩
          have hoc2 : oc = sub0 := by
            rw [← hch] at hoc
            simpa [MapperNode.children] using hoc.symm
          rw [hoc2] at hinner
          have hlast := ih false lc (d :: rest) sub0 lc' ref' hsub
            (fun e he => hz e (by simp [he])) hinner
          rw [← ht'] at hk ⊢
          cases k with
          | zero =>
            have hne := replaceLast_ne_nil tcs lc' hcs
            simp [lastF, MapperNode.children, List.isEmpty_iff] at hk
            exact absurd hk hne
          | succ k =>
            have hstep :
                lastF (k + 1) (MapperNode.mk tcfg (replaceLast tcs lc'))
                  = lastF k lc' := by
              rw [lastF]
              simp only [MapperNode.children]
              rw [getLast?_replaceLast tcs lc' hcs]
            rw [hstep] at hk ⊢
            exact hlast k hk
      · -- pure carry: carry = 1, contradiction with carry = 0
        simp only [Option.some.injEq, Prod.mk.injEq] at h
        obtain ⟨_, _, hcarry⟩ := h
        cases hcarry
    · -- divergence: chain appended as a new last child
      simp only [Option.some.injEq, Prod.mk.injEq] at h
      obtain ⟨ht', _, _⟩ := h
      rw [← ht'] at hk ⊢
      cases k with
      | zero => simp [lastF, MapperNode.children] at hk
      | succ k =>
        have hstep :
            lastF (k + 1) (MapperNode.mk tcfg (tcs ++ [ch]))
              = lastF k ch := by
          rw [lastF]
          simp only [MapperNode.children]
          rw [List.getLast?_concat]
        rw [hstep] at hk ⊢
        exact lastF_buildChain_offset cfgs ch hbc hz k hk

end Pyxl

namespace Pyxl

/-- When `merge` reports its divergent node inside the tree, the path is
valid: some config sits at it. -/
theorem merge_inTree_configAt :
    ∀ (fuel : Nat) (r : Bool) (t ch t' : MapperNode) (p : List Nat) (carry : Nat),
      merge fuel r t ch = some (t', .inTree p, carry) →
      ∃ c₀, configAt t' p = some c₀ := by
  intro fuel
  induction fuel with
  | zero => intro r t ch t' p carry h; simp [merge] at h
  | succ fuel ih =>
    intro r t ch t' p carry h
    obtain ⟨tcfg, tcs⟩ := t
    rw [merge] at h
    simp only [MapperNode.children, MapperNode.config] at h
    split at h
    · cases h
    split at h
    · simp only [Option.some.injEq, Prod.mk.injEq] at h
      obtain ⟨_, href, _⟩ := h
      cases href
    split at h
    · cases h
    rename_i lc hL
    have hcs : tcs ≠ [] := fun hh => by rw [hh] at hL; cases hL
    split at h
    · split at h
      · rename_i heqPy oc hoc
        rcases Option.map_eq_some'.mp h with ⟨⟨lc', ref', carry'⟩, hinner, heq2⟩
        simp only [Prod.mk.injEq] at heq2
        obtain ⟨ht', href, hcarry⟩ := heq2
        match ref', href with
        | MergeRef.inTree p', href =>
          simp only [MergeRef.shift] at href
          rcases MergeRef.inTree.inj href with hp
          obtain ⟨c₀, hc₀⟩ := ih false lc oc lc' p' carry' hinner
          refine ⟨c₀, ?_⟩
          rw [← ht', ← hp]
          rw [configAt]
          simp only [MapperNode.children]
          rw [get?_replaceLast tcs lc' hcs]
          exact hc₀
      · simp only [Option.some.injEq, Prod.mk.injEq] at h
        obtain ⟨_, href, _⟩ := h
        cases href
    · simp only [Option.some.injEq, Prod.mk.injEq] at h
      obtain ⟨ht', href, _⟩ := h
      rcases MergeRef.inTree.inj href with hp
      refine ⟨ch.config, ?_⟩
      rw [← ht', ← hp]
      rw [configAt]
      simp only [MapperNode.children]
      rw [List.get?_concat_length]
      rfl

/-- `updateCfgAt` succeeds wherever `configAt` does, and applies `f` at the
addressed node. -/
theorem updateCfgAt_configAt :
    ∀ (p : List Nat) (t : MapperNode) (c : InternalConfig)
      (f : InternalConfig → InternalConfig),
      configAt t p = some c →
      ∃ t'', updateCfgAt t p f = some t'' ∧ configAt t'' p = some (f c) := by
  intro p
  induction p with
  | nil =>
    intro t c f h
    obtain ⟨tcfg, tcs⟩ := t
    simp only [configAt, MapperNode.config, Option.some.injEq] at h
    refine ⟨.mk (f tcfg) tcs, rfl, ?_⟩
    simp [configAt, MapperNode.config, h]
  | cons i p ih =>
    intro t c f h
    obtain ⟨tcfg, tcs⟩ := t
    rw [configAt] at h
    simp only [MapperNode.children] at h
    rcases hg : tcs.get? i with _ | child
    · rw [hg] at h; cases h
    rw [hg] at h
    obtain ⟨t'', ht'', hc''⟩ := ih child c f h
    have hlt : i < tcs.length := by
      rcases List.get?_eq_some.mp hg with ⟨hh, _⟩; exact hh
    refine ⟨.mk tcfg (tcs.set i t''), ?_, ?_⟩
    · rw [updateCfgAt, hg]
      simp [ht'']
    · rw [configAt]
      simp only [MapperNode.children]
      rw [List.get?_set_eq_of_lt _ hlt]
      exact hc''

/-- Every config built by `InternalConfig.from_input_name` has offset (0, 0). -/
theorem mapM_from_input_name_offsets :
    ∀ (levels : List String) (cfgs : List InternalConfig),
      levels.mapM InternalConfig.from_input_name = some cfgs →
      ∀ c ∈ cfgs, c.offset = (0, 0) := by
  intro levels
  induction levels with
  | nil =>
    intro cfgs h
    simp only [List.mapM_nil, Option.pure_def, Option.some.injEq] at h
    simp [← h]
  | cons l ls ih =>
    intro cfgs h
    rw [List.mapM_cons] at h
    rcases hf : InternalConfig.from_input_name l with _ | c0
    · rw [hf] at h; simp at h
    rw [hf] at h
    rcases hm : ls.mapM InternalConfig.from_input_name with _ | cs0
    · rw [hm] at h; simp at h
    rw [hm] at h
    simp at h
    subst h
    intro c hc
    rcases List.mem_cons.mp hc with hc | hc
    · subst hc
      rcases Option.map_eq_some'.mp hf with ⟨raw, _, hcf⟩
      rw [← hcf]
    · exact ih cs0 hm c hc

theorem mem_addOverride (l : List String) (s : String) : s ∈ addOverride l s := by
  by_cases h : s ∈ l <;> simp [addOverride, h]

end Pyxl

namespace Pyxl

/-! ### Claim C1 -/

/-- C1: during inference, carries returned by `merge` accumulate across
consecutive columns (first conjunct), and at a column whose merge reports a
genuine divergence (carry 0) while the accumulator is positive, the divergent
node's declared column offset is set to the accumulated carry count,
"offset" is added to its explicitly-set fields, and the accumulator resets
to 0 (second conjunct). The `isEmpty` hypothesis is the fuel-adequacy side
condition for the rightmost-descendant computation (`lastF`). -/
theorem inferStep_carry (fuel : Nat) (t : MapperNode) (acc : Nat)
    (levels : List String) (cfgs : List InternalConfig) (chain : MapperNode)
    (hlv : levels.mapM InternalConfig.from_input_name = some cfgs)
    (hbc : buildChain cfgs = some chain) :
    (∀ t' ref carry, merge fuel true t chain = some (t', ref, carry) → 0 < carry →
      inferStep fuel (t, acc) levels = some (t', acc + carry)) ∧
    (∀ t' p, merge fuel true t chain = some (t', .inTree p, 0) → 0 < acc →
      (lastF fuel t').children.isEmpty = true →
      ∃ t'' cfg, inferStep fuel (t, acc) levels = some (t'', 0) ∧
        configAt t'' p = some cfg ∧
        cfg.offset = (0, (acc : Int)) ∧ "offset" ∈ cfg.overrides) := by
  constructor
  · intro t' ref carry hm hpos
    unfold inferStep
    simp only [hlv, hbc, hm]
    rw [if_neg]
    intro hcond
    omega
  · intro t' p hm hacc hstable
    have hoff := merge_divergent_last_offset fuel true t cfgs chain t' (.inTree p)
      hbc (mapM_from_input_name_offsets levels cfgs hlv) hm fuel hstable
    obtain ⟨c₀, hc₀⟩ := merge_inTree_configAt fuel true t chain t' p 0 hm
    obtain ⟨t'', ht'', hc''⟩ := updateCfgAt_configAt p t' c₀
      (fun c =>
        { c with
            offset := ((lastF fuel t').config.offset.1,
              (lastF fuel t').config.offset.2 + ((acc + 0 : Nat) : Int)),
            overrides := addOverride c.overrides "offset" }) hc₀
    refine ⟨t'', _, ?_, hc'', ?_, ?_⟩
    · unfold inferStep
      simp only [hlv, hbc, hm]
      rw [if_pos]
      · rw [ht'']
        rfl
      · exact ⟨by omega, trivial⟩
    · show ((lastF fuel t').config.offset.1,
        (lastF fuel t').config.offset.2 + ((acc + 0 : Nat) : Int)) = (0, (acc : Int))
      rw [hoff]
      simp
    · exact mem_addOverride c₀.overrides "offset"

end Pyxl

namespace Pyxl

/-! Concrete trees for the C1/C5 witnesses: the state of `infer` after the
columns ["P","A"] and ["P"] (one accumulated carry), about to read ["Q"]. -/

def cfgRootW : InternalConfig :=
  { raw_name := "Root", offset := (0, 0) }

def cfgPW : InternalConfig :=
  { raw_name := "P", offset := (0, 0), input_name := "P", output_name := "p" }

def cfgAW : InternalConfig :=
  { raw_name := "A", offset := (0, 0), input_name := "A", output_name := "a" }

def cfgQW : InternalConfig :=
  { raw_name := "Q", offset := (0, 0), input_name := "Q", output_name := "q" }

def tC1 : MapperNode := .mk cfgRootW [.mk cfgPW [.mk cfgAW []]]

example : InternalConfig.from_input_name "P" = some cfgPW := by rfl
example : InternalConfig.from_input_name "Q" = some cfgQW := by rfl

/-- Witness for `inferStep_carry` at concrete inputs: over the state reached
after columns ["P","A"], ["P"] the column ["P"] is a pure carry (accumulator
1), and the next column ["Q"] diverges at root level and receives column
offset 1 with "offset" recorded. -/
theorem inferStep_carry_witness :
    inferStep 9 (tC1, 0) ["P"] = some (tC1, 1) ∧
    (∃ t'' cfg, inferStep 9 (tC1, 1) ["Q"] = some (t'', 0) ∧
      configAt t'' [1] = some cfg ∧ cfg.offset = (0, (1 : Int)) ∧
      "offset" ∈ cfg.overrides) := by
  constructor
  · exact (inferStep_carry 9 tC1 0 ["P"] [cfgPW] (.mk cfgPW []) (by rfl) (by rfl)).1
      tC1 .chainNode 1 (by rfl) (by decide)
  · exact (inferStep_carry 9 tC1 1 ["Q"] [cfgQW] (.mk cfgQW []) (by rfl) (by rfl)).2
      (.mk cfgRootW [.mk cfgPW [.mk cfgAW []], .mk cfgQW []]) [1] (by rfl)
      (by decide) (by rfl)

/-! ### Claim C5 -/

/-- C5 counterexample: a column with an entirely empty label list does not
add a carry unit — the accumulator stays 0 instead of becoming 1 (and the
tree is untouched). -/
theorem inferStep_empty_column_counterexample :
    inferStep 9 (tC1, 0) [] = some (tC1, 0) ∧
      (inferStep 9 (tC1, 0) []).map Prod.snd ≠ some 1 := by
  refine ⟨rfl, ?_⟩
  intro h
  rw [show inferStep 9 (tC1, 0) [] = some (tC1, 0) from rfl] at h
  simp at h

/-- C5 amended: a column whose collected label list is entirely empty is
skipped by the inference loop (`parent is None`): merge is not called, the
tree is unchanged and the accumulated carry is unchanged — it does not
participate in carry accounting. -/
theorem inferStep_empty_column_amended (fuel : Nat) (t : MapperNode) (acc : Nat) :
    inferStep fuel (t, acc) [] = some (t, acc) := rfl

end Pyxl

namespace Pyxl

/-! ### Nested record objects and util.dict_path_set -/

/-- A value inside the nested record a data row is mapped to: either a
primitive cell value or a nested dict (modelled as an insertion-ordered
association list, like a Python dict). -/
inductive PyObj where
  | prim (v : CellValue)
  | dict (entries : List (String × PyObj))
deriving Repr

def assocGet : List (String × PyObj) → String → Option PyObj
  | [], _ => Option.none
  | (k', v') :: t, k => if k' = k then some v' else assocGet t k

/-- Python `obj[k] = v` on a dict: update in place, else append. -/
def assocSet : List (String × PyObj) → String → PyObj → List (String × PyObj)
  | [], k, v => [(k, v)]
  | (k', v') :: t, k, v =>
    if k' = k then (k, v) :: t else (k', v') :: assocSet t k v

/-- `util.dict_path_set`: walk `path[:-1]`, creating `{}` for missing keys,
then assign at `path[-1]`. `none` models the `IndexError` on an empty path
and the `TypeError` raised when an intermediate key is bound to a
non-dict. -/
def dict_path_set : List (String × PyObj) → List String → CellValue →
    Option (List (String × PyObj))
  | _, [], _ => Option.none
  | d, [k], v => some (assocSet d k (.prim v))
  | d, k :: k' :: p, v =>
    match assocGet d k with
    | Option.none =>
      (dict_path_set [] (k' :: p) v).map (fun sub => assocSet d k (.dict sub))
    | some (.dict sub) =>
      (dict_path_set sub (k' :: p) v).map (fun sub2 => assocSet d k (.dict sub2))
    | some (.prim _) => Option.none

/-- Look a value up along a key path. -/
def lookupPath : List (String × PyObj) → List String → Option PyObj
  | _, [] => Option.none
  | d, [k] => assocGet d k
  | d, k :: k' :: p =>
    match assocGet d k with
    | some (.dict sub) => lookupPath sub (k' :: p)
    | _ => Option.none

/-- `startsPath p q`: the key path `p` is an initial segment of `q`. -/
def startsPath : List String → List String → Bool
  | [], _ => true
  | _ :: _, [] => false
  | a :: as, b :: bs => a == b && startsPath as bs

/-- Two key paths are independent when neither is an initial segment of the
other (they address unrelated slots of the record forest). -/
def indepPath (p q : List String) : Prop :=
  startsPath p q = false ∧ startsPath q p = false

/-- No proper ancestor of the (nonempty) path is bound to a primitive in
`d` — the condition under which `dict_path_set` cannot raise. -/
def settable : List (String × PyObj) → List String → Bool
  | _, [] => false
  | _, [_] => true
  | d, k :: k' :: p =>
    match assocGet d k with
    | Option.none => true
    | some (.dict sub) => settable sub (k' :: p)
    | some (.prim _) => false

theorem assocGet_set_same (d : List (String × PyObj)) (k : String) (v : PyObj) :
    assocGet (assocSet d k v) k = some v := by
  induction d with
  | nil => simp [assocGet, assocSet]
  | cons kv t ih =>
    obtain ⟨k', v'⟩ := kv
    by_cases h : k' = k <;> simp [assocGet, assocSet, h, ih]

theorem assocGet_set_other (d : List (String × PyObj)) (k k₂ : String) (v : PyObj)
    (h : k ≠ k₂) : assocGet (assocSet d k v) k₂ = assocGet d k₂ := by
  induction d with
  | nil => simp [assocGet, assocSet, h]
  | cons kv t ih =>
    obtain ⟨k', v'⟩ := kv
    by_cases h2 : k' = k
    · subst h2
      simp [assocGet, assocSet, h]
    · simp only [assocSet, if_neg h2]
      by_cases h3 : k' = k₂ <;> simp [assocGet, h3, ih]

theorem settable_nil (p : List String) (h : p ≠ []) : settable [] p = true := by
  match p with
  | [_] => rfl
  | _ :: _ :: _ => simp [settable, assocGet]

/-- A settable path can be set. -/
theorem dict_path_set_isSome :
    ∀ (p : List String) (d : List (String × PyObj)) (v : CellValue),
      settable d p = true → ∃ d', dict_path_set d p v = some d' := by
  intro p
  induction p with
  | nil => intro d v h; simp [settable] at h
  | cons k p ih =>
    intro d v h
    match p, h with
    | [], h => exact ⟨assocSet d k (.prim v), rfl⟩
    | k' :: p2, h =>
      rw [settable] at h
      rcases hg : assocGet d k with _ | sub
      · obtain ⟨sub', hsub'⟩ := ih [] v (settable_nil _ (by simp))
        exact ⟨assocSet d k (.dict sub'), by rw [dict_path_set, hg]; simp [hsub']⟩
      · rw [hg] at h
        match sub, h with
        | .dict sub, h =>
          obtain ⟨sub2, hsub2⟩ := ih sub v h
          exact ⟨assocSet d k (.dict sub2), by rw [dict_path_set, hg]; simp [hsub2]⟩

/-- After a successful set, the value is found at the path. -/
theorem lookupPath_dict_path_set :
    ∀ (p : List String) (d d' : List (String × PyObj)) (v : CellValue),
      dict_path_set d p v = some d' → lookupPath d' p = some (.prim v) := by
  intro p
  induction p with
  | nil => intro d d' v h; simp [dict_path_set] at h
  | cons k p ih =>
    intro d d' v h
    match p with
    | [] =>
      simp only [dict_path_set, Option.some.injEq] at h
      rw [← h]
      simp [lookupPath, assocGet_set_same]
    | k' :: p2 =>
      rw [dict_path_set] at h
      rcases hg : assocGet d k with _ | sub
      · rw [hg] at h
        rcases Option.map_eq_some'.mp h with ⟨sub', hsub', hd'⟩
        rw [← hd']
        rw [lookupPath, assocGet_set_same]
        exact ih [] sub' v hsub'
      · rw [hg] at h
        match sub with
        | .prim w => cases h
        | .dict sub =>
          rcases Option.map_eq_some'.mp h with ⟨sub2, hsub2, hd'⟩
          rw [← hd']
          rw [lookupPath, assocGet_set_same]
          exact ih sub sub2 v hsub2

end Pyxl

namespace Pyxl

theorem lookupPath_nil (p : List String) : lookupPath [] p = Option.none := by
  match p with
  | [] => rfl
  | [k] => rfl
  | k :: k' :: p2 => simp [lookupPath, assocGet]

/-- Setting an independent path does not change lookups. -/
theorem lookupPath_set_indep :
    ∀ (q : List String) (d d' : List (String × PyObj)) (v : CellValue)
      (p : List String),
      dict_path_set d q v = some d' → indepPath p q →
      lookupPath d' p = lookupPath d p := by
  intro q
  induction q with
  | nil => intro d d' v p h _; simp [dict_path_set] at h
  | cons kq q ih =>
    intro d d' v p hset hind
    match q with
    | [] =>
      simp only [dict_path_set, Option.some.injEq] at hset
      subst hset
      match p with
      | [] => rfl
      | kp :: p2 =>
        have hne : kq ≠ kp := by
          intro he
          subst he
          have := hind.2
          simp [startsPath] at this
        match p2 with
        | [] => simp [lookupPath, assocGet_set_other d kq kp _ hne]
        | kp2 :: p3 => simp [lookupPath, assocGet_set_other d kq kp _ hne]
    | kq' :: q2 =>
      rw [dict_path_set] at hset
      rcases hg : assocGet d kq with _ | sub
      · rw [hg] at hset
        rcases Option.map_eq_some'.mp hset with ⟨subq, hsubq, hd'⟩
        subst hd'
        match p with
        | [] => rfl
        | kp :: p2 =>
          by_cases hne : kp = kq
          · subst hne
            match p2 with
            | [] =>
              exfalso
              have := hind.1
              simp [startsPath] at this
            | kp2 :: p3 =>
              simp only [lookupPath, assocGet_set_same, hg]
              have hindt : indepPath (kp2 :: p3) (kq' :: q2) := by
                refine ⟨?_, ?_⟩
                · have := hind.1; simpa [startsPath] using this
                · have := hind.2; simpa [startsPath] using this
              have hres := ih [] subq v (kp2 :: p3) hsubq hindt
              rwa [lookupPath_nil] at hres
          · match p2 with
            | [] => simp [lookupPath, assocGet_set_other d kq kp _ (fun he => hne he.symm)]
            | kp2 :: p3 =>
              simp [lookupPath, assocGet_set_other d kq kp _ (fun he => hne he.symm)]
      · rw [hg] at hset
        match sub with
        | .prim w => cases hset
        | .dict sub =>
          rcases Option.map_eq_some'.mp hset with ⟨sub2, hsub2, hd'⟩
          subst hd'
          match p with
          | [] => rfl
          | kp :: p2 =>
            by_cases hne : kp = kq
            · subst hne
              match p2 with
              | [] =>
                exfalso
                have := hind.1
                simp [startsPath] at this
              | kp2 :: p3 =>
                simp only [lookupPath, assocGet_set_same, hg]
                have hindt : indepPath (kp2 :: p3) (kq' :: q2) := by
                  refine ⟨?_, ?_⟩
                  · have := hind.1; simpa [startsPath] using this
                  · have := hind.2; simpa [startsPath] using this
                exact ih sub sub2 v (kp2 :: p3) hsub2 hindt
            · match p2 with
              | [] => simp [lookupPath, assocGet_set_other d kq kp _ (fun he => hne he.symm)]
              | kp2 :: p3 =>
                simp [lookupPath, assocGet_set_other d kq kp _ (fun he => hne he.symm)]

/-- Setting an independent path preserves settability. -/
theorem settable_set_indep :
    ∀ (q : List String) (d d' : List (String × PyObj)) (v : CellValue)
      (p : List String),
      dict_path_set d q v = some d' → indepPath p q →
      settable d p = true → settable d' p = true := by
  intro q
  induction q with
  | nil => intro d d' v p h _ _; simp [dict_path_set] at h
  | cons kq q ih =>
    intro d d' v p hset hind hs
    match q with
    | [] =>
      simp only [dict_path_set, Option.some.injEq] at hset
      subst hset
      match p with
      | [] => simp [settable] at hs
      | [kp] => rfl
      | kp :: kp2 :: p3 =>
        have hne : kq ≠ kp := by
          intro he
          subst he
          have := hind.2
          simp [startsPath] at this
        rw [settable] at hs ⊢
        rw [assocGet_set_other d kq kp _ hne]
        exact hs
    | kq' :: q2 =>
      rw [dict_path_set] at hset
      rcases hg : assocGet d kq with _ | sub
      · rw [hg] at hset
        rcases Option.map_eq_some'.mp hset with ⟨subq, hsubq, hd'⟩
        subst hd'
        match p with
        | [] => simp [settable] at hs
        | [kp] => rfl
        | kp :: kp2 :: p3 =>
          by_cases hne : kp = kq
          · subst hne
            rw [settable]
            rw [assocGet_set_same]
            have hindt : indepPath (kp2 :: p3) (kq' :: q2) := by
              refine ⟨?_, ?_⟩
              · have := hind.1; simpa [startsPath] using this
              · have := hind.2; simpa [startsPath] using this
            exact ih [] subq v (kp2 :: p3) hsubq hindt (settable_nil _ (by simp))
          · rw [settable] at hs ⊢
            rw [assocGet_set_other d kq kp _ (fun he => hne he.symm)]
            exact hs
      · rw [hg] at hset
        match sub with
        | .prim w => cases hset
        | .dict sub =>
          rcases Option.map_eq_some'.mp hset with ⟨sub2, hsub2, hd'⟩
          subst hd'
          match p with
          | [] => simp [settable] at hs
          | [kp] => rfl
          | kp :: kp2 :: p3 =>
            by_cases hne : kp = kq
            · subst hne
              rw [settable] at hs
              rw [hg] at hs
              rw [settable]
              rw [assocGet_set_same]
              have hindt : indepPath (kp2 :: p3) (kq' :: q2) := by
                refine ⟨?_, ?_⟩
                · have := hind.1; simpa [startsPath] using this
                · have := hind.2; simpa [startsPath] using this
              exact ih sub sub2 v (kp2 :: p3) hsub2 hindt hs
            · rw [settable] at hs ⊢
              rw [assocGet_set_other d kq kp _ (fun he => hne he.symm)]
              exact hs

end Pyxl

namespace Pyxl

/-- Folding `dict_path_set` over a family of pairwise-independent nonempty
paths succeeds, binds every path to its value, and leaves independent slots
untouched. -/
theorem foldSet_spec :
    ∀ (items : List (List String × CellValue)) (d : List (String × PyObj)),
      (∀ pv ∈ items, pv.1 ≠ []) →
      List.Pairwise (fun a b => indepPath a.1 b.1) items →
      (∀ pv ∈ items, settable d pv.1 = true) →
      ∃ d', items.foldlM (fun acc pv => dict_path_set acc pv.1 pv.2) d = some d' ∧
        (∀ pv ∈ items, lookupPath d' pv.1 = some (.prim pv.2)) ∧
        (∀ q, (∀ pv ∈ items, indepPath q pv.1) →
          lookupPath d' q = lookupPath d q ∧
          (settable d q = true → settable d' q = true)) := by
  intro items
  induction items with
  | nil =>
    intro d _ _ _
    exact ⟨d, rfl, by simp, fun q _ => ⟨rfl, fun h => h⟩⟩
  | cons pv0 rest ih =>
    intro d hne hpw hs
    obtain ⟨d1, hd1⟩ := dict_path_set_isSome pv0.1 d pv0.2 (hs pv0 (by simp))
    have hpw_rest : List.Pairwise (fun a b => indepPath a.1 b.1) rest :=
      (List.pairwise_cons.mp hpw).2
    have hind0 : ∀ pv ∈ rest, indepPath pv0.1 pv.1 :=
      (List.pairwise_cons.mp hpw).1
    have hs1 : ∀ pv ∈ rest, settable d1 pv.1 = true := fun pv hpv =>
      settable_set_indep pv0.1 d d1 pv0.2 pv.1 hd1
        ⟨(hind0 pv hpv).2, (hind0 pv hpv).1⟩ (hs pv (by simp [hpv]))
    obtain ⟨d', hfold, hlook, hpres⟩ := ih d1 (fun pv hpv => hne pv (by simp [hpv]))
      hpw_rest hs1
    refine ⟨d', ?_, ?_, ?_⟩
    · rw [List.foldlM_cons, hd1]
      exact hfold
    · intro pv hpv
      rcases List.mem_cons.mp hpv with hpv | hpv
    
      · rw [hpv]
        have hl1 := lookupPath_dict_path_set pv0.1 d d1 pv0.2 hd1
        have hp := (hpres pv0.1 (fun pv hpv => hind0 pv hpv)).1
        rw [hp, hl1]
      · exact hlook pv hpv
    · intro q hq
      have hq0 := hq pv0 (by simp)
      have hqr : ∀ pv ∈ rest, indepPath q pv.1 := fun pv hpv => hq pv (by simp [hpv])
      obtain ⟨hpl, hps⟩ := hpres q hqr
      refine ⟨?_, ?_⟩
      · rw [hpl]
        exact lookupPath_set_indep pv0.1 d d1 pv0.2 q hd1 hq0
      · intro hsq
        exact hps (settable_set_indep pv0.1 d d1 pv0.2 q hd1 hq0 hsq)

end Pyxl

namespace Pyxl

/-! ### A stateful interpreter for the MapperNode object graph
(`column_pos`/`abs_pos` with their `cached_property` semantics,
`_verify_augment`, `map_rows`). Nodes are numeric ids. -/

/-- Per-node config data used by positions and verification. -/
structure NodeCfg where
  raw_name : String
  input_name : String
  output_name : String
  offRow : Int
  offCol : Int
  optional : Bool
deriving DecidableEq, Repr

/-- The mutable object graph: `par`/`chs` are the `parent`/`children`
references, `colCache`/`absCache` the `cached_property` slots of
`column_pos`/`abs_pos`. -/
structure VState where
  root : Nat
  cfgs : List (Nat × NodeCfg)
  par : List (Nat × Option Nat)
  chs : List (Nat × List Nat)
  colCache : List (Nat × Int)
  absCache : List (Nat × (Int × Int))
deriving DecidableEq, Repr

def alookup {α : Type} : List (Nat × α) → Nat → Option α
  | [], _ => Option.none
  | (k, v) :: t, i => if k = i then some v else alookup t i

def aset {α : Type} : List (Nat × α) → Nat → α → List (Nat × α)
  | [], i, v => [(i, v)]
  | (k, w) :: t, i, v => if k = i then (i, v) :: t else (k, w) :: aset t i v

def adel {α : Type} : List (Nat × α) → Nat → List (Nat × α)
  | [], _ => []
  | (k, w) :: t, i => if k = i then t else (k, w) :: adel t i

def cfgEqPy (a b : NodeCfg) : Bool :=
  a.raw_name == b.raw_name && a.input_name == b.input_name &&
    a.output_name == b.output_name

mutual

/-- Python `==` on `MapperNode` objects (dataclass equality): identity
shortcut, else compare config (the custom name-triple `__eq__`), then
`parent`, then `children` elementwise, short-circuiting. Comparing two
distinct equal-config siblings with children recurses through the parents
back into the same comparison, which in CPython ends in a RecursionError;
fuel exhaustion (`none`) models that crash. On every comparison that
terminates in Python this function agrees with it. -/
def pyEqF : Nat → VState → Nat → Nat → Option Bool
  | 0, _, _, _ => Option.none
  | fuel + 1, st, a, b =>
    if a = b then some true
    else
      match alookup st.cfgs a, alookup st.cfgs b with
      | some ca, some cb =>
        if cfgEqPy ca cb then
          match alookup st.par a, alookup st.par b with
          | some pa, some pb =>
            match parEqF fuel st pa pb with
            | Option.none => Option.none
            | some false => some false
            | some true =>
              match alookup st.chs a, alookup st.chs b with
              | some csa, some csb => childrenEqF fuel st csa csb
              | _, _ => Option.none
          | _, _ => Option.none
        else some false
      | _, _ => Option.none

def parEqF : Nat → VState → Option Nat → Option Nat → Option Bool
  | 0, _, _, _ => Option.none
  | fuel + 1, st, pa, pb =>
    match pa, pb with
    | Option.none, Option.none => some true
    | some x, some y => if x = y then some true else pyEqF fuel st x y
    | _, _ => some false

def childrenEqF : Nat → VState → List Nat → List Nat → Option Bool
  | 0, _, _, _ => Option.none
  | _ + 1, _, [], [] => some true
  | fuel + 1, st, x :: xs, y :: ys =>
    match pyEqF fuel st x y with
    | Option.none => Option.none
    | some false => some false
    | some true => childrenEqF fuel st xs ys
  | _ + 1, _, _, _ => some false

end

/-- The `index_of` helper inside `column_pos`: index of the first sibling
that compares `==` to `item`, `-1` if none. -/
def indexOfPy (fuel : Nat) (st : VState) : List Nat → Nat → Nat → Option Int
  | [], _, _ => some (-1)
  | x :: xs, item, idx =>
    match pyEqF fuel st x item with
    | Option.none => Option.none
    | some true => some (idx : Int)
    | some false => indexOfPy fuel st xs item (idx + 1)

/-- Python `list.remove`: drop the first `==`-equal element (`none` for the
ValueError when nothing matches, or a crashed comparison). -/
def removeFirstPy (fuel : Nat) (st : VState) : List Nat → Nat → Option (List Nat)
  | [], _ => Option.none
  | x :: xs, item =>
    match pyEqF fuel st x item with
    | Option.none => Option.none
    | some true => some xs
    | some false => (removeFirstPy fuel st xs item).map (x :: ·)

/-- The `last` property (rightmost descendant) on the object graph. -/
def lastNodeF : Nat → VState → Nat → Option Nat
  | 0, _, _ => Option.none
  | fuel + 1, st, i =>
    match alookup st.chs i with
    | Option.none => Option.none
    | some cs =>
      match cs.getLast? with
      | Option.none => some i
      | some x => lastNodeF fuel st x

mutual

/-- `MapperNode.column_pos` with `cached_property` semantics: consult the
cache; a parentless node gets `offset[1] + 1`; otherwise find this node's
index among its parent's children via `index_of` (Python `==`!), take the
previous sibling's rightmost descendant's absolute column (or the parent's
absolute column minus 1 for index ≤ 0), and add `offset[1] + 1`. The state
threads every cache written along the way. -/
def colPosF : Nat → VState → Nat → Option (Int × VState)
  | 0, _, _ => Option.none
  | fuel + 1, st, i =>
    match alookup st.colCache i with
    | some v => some (v, st)
    | Option.none =>
      match alookup st.cfgs i, alookup st.par i with
      | some cfg, some pOpt =>
        match pOpt with
        | Option.none =>
          some (cfg.offCol + 1,
            { st with colCache := aset st.colCache i (cfg.offCol + 1) })
        | some p =>
          match alookup st.chs p with
          | Option.none => Option.none
          | some siblings =>
            match indexOfPy fuel st siblings i 0 with
            | Option.none => Option.none
            | some pos =>
              if pos > 0 then
                match siblings.get? (pos - 1).toNat with
                | Option.none => Option.none
                | some sib =>
                  match lastNodeF fuel st sib with
                  | Option.none => Option.none
                  | some lastId =>
                    match absPosF fuel st lastId with
                    | Option.none => Option.none
                    | some (rc, st1) =>
                      let v := rc.2 + cfg.offCol + 1
                      some (v, { st1 with colCache := aset st1.colCache i v })
              else
                match absPosF fuel st p with
                | Option.none => Option.none
                | some (rc, st1) =>
                  let v := (rc.2 - 1) + cfg.offCol + 1
                  some (v, { st1 with colCache := aset st1.colCache i v })
      | _, _ => Option.none

/-- `MapperNode.abs_pos` with `cached_property` semantics: root row is its
own offset row; otherwise parent's absolute row + offset row + 1; the column
is `column_pos`. -/
def absPosF : Nat → VState → Nat → Option ((Int × Int) × VState)
  | 0, _, _ => Option.none
  | fuel + 1, st, i =>
    match alookup st.absCache i with
    | some rc => some (rc, st)
    | Option.none =>
      match alookup st.cfgs i, alookup st.par i with
      | some cfg, some pOpt =>
        match pOpt with
        | Option.none =>
          match colPosF fuel st i with
          | Option.none => Option.none
          | some (c, st1) =>
            let rc := (cfg.offRow, c)
            some (rc, { st1 with absCache := aset st1.absCache i rc })
        | some p =>
          match absPosF fuel st p with
          | Option.none => Option.none
          | some (prc, st1) =>
            match colPosF fuel st1 i with
            | Option.none => Option.none
            | some (c, st2) =>
              let rc := (prc.1 + cfg.offRow + 1, c)
              some (rc, { st2 with absCache := aset st2.absCache i rc })
      | _, _ => Option.none

end

/-- `MapperNode.clear_caches`. -/
def clearCaches (st : VState) (i : Nat) : VState :=
  { st with absCache := adel st.absCache i, colCache := adel st.colCache i }

/-- `MapperNode.__iter__` preorder. During `_verify_augment` each node's
child iterators are created by `chain(*map(iter, self.children))` as soon as
iteration moves past the node — before any of its children is visited — and
the only tree mutation (detaching the currently visited node from its
parent's children list) touches lists whose iterators were already captured,
so mutation never changes the visit sequence: it is exactly the preorder of
the tree at entry. -/
def preorderF : Nat → VState → Nat → Option (List Nat)
  | 0, _, _ => Option.none
  | fuel + 1, st, i =>
    match alookup st.chs i with
    | Option.none => Option.none
    | some cs =>
      match cs.mapM (preorderF fuel st) with
      | Option.none => Option.none
      | some ls => some (i :: ls.join)

/-- `MapperNode.get_leaves` (left-to-right leaf order; a childless node is
its own leaf). -/
def leavesF : Nat → VState → Nat → Option (List Nat)
  | 0, _, _ => Option.none
  | fuel + 1, st, i =>
    match alookup st.chs i with
    | Option.none => Option.none
    | some [] => some [i]
    | some cs =>
      match cs.mapM (leavesF fuel st) with
      | Option.none => Option.none
      | some ls => some ls.join

/-- `node.get_path()[1:]` mapped to `output_name` (the record key path). -/
def pathNamesF : Nat → VState → Nat → Option (List String)
  | 0, _, _ => Option.none
  | fuel + 1, st, i =>
    match alookup st.par i, alookup st.cfgs i with
    | some pOpt, some cfg =>
      match pOpt with
      | Option.none => some []
      | some p => (pathNamesF fuel st p).map (· ++ [cfg.output_name])
    | _, _ => Option.none

end Pyxl

namespace Pyxl

inductive VerifyOutcome where
  | ok (st : VState)
  | raise
deriving DecidableEq, Repr

/-- The loop body of `SpreadsheetMapper._verify_augment` over the frozen
preorder list: skip the root (`node.is_root`); once the dirty flag is set,
clear each visited node's caches; read the grid at the node's absolute
position and compare the normalized text to `input_name`. On a mismatch an
`optional` node is detached from its parent's children (Python
`list.remove`, which drops the first `==`-equal child) and the flag set; a
blank cell is tolerated; anything else raises ValueError. The returned
trace lists the ids of all nodes whose grid cell was read and compared. -/
def verifyGo (g : Grid) (fuel : Nat) :
    List Nat → VState → Bool → List Nat → Option (List Nat × VerifyOutcome)
  | [], st, _, trace => some (trace, .ok st)
  | i :: rest, st, dirty, trace =>
    match alookup st.par i with
    | Option.none => Option.none
    | some pOpt =>
      if pOpt = Option.none then
        verifyGo g fuel rest st dirty trace
      else
        let st0 := if dirty then clearCaches st i else st
        match absPosF fuel st0 i with
        | Option.none => Option.none
        | some (rc, st1) =>
          match alookup st1.cfgs i with
          | Option.none => Option.none
          | some cfg =>
            let actual := normalize (g rc.1 rc.2)
            let trace1 := trace ++ [i]
            if actual = .str cfg.input_name then
              verifyGo g fuel rest st1 dirty trace1
            else if cfg.optional then
              match pOpt with
              | some p =>
                match alookup st1.chs p with
                | Option.none => Option.none
                | some pcs =>
                  match removeFirstPy fuel st1 pcs i with
                  | Option.none => Option.none
                  | some pcs' =>
                    verifyGo g fuel rest
                      { st1 with chs := aset st1.chs p pcs',
                                 par := aset st1.par i Option.none }
                      true trace1
              | Option.none => Option.none
            else if actual = .blank then
              verifyGo g fuel rest st1 dirty trace1
            else
              some (trace1, .raise)

/-- `SpreadsheetMapper._verify_augment`. -/
def verifyF (g : Grid) (fuel : Nat) (st : VState) :
    Option (List Nat × VerifyOutcome) :=
  match preorderF fuel st st.root with
  | Option.none => Option.none
  | some order => verifyGo g fuel order st false []

/-- Leaf record paths (`get_path()[1:]` output names) and columns
(`column_pos`), threading the caches in leaf order — the values Python
computes lazily during the first data row. -/
def leafDataGo (fuel : Nat) : List Nat → VState →
    Option (List (List String × Int) × VState)
  | [], st => some ([], st)
  | i :: rest, st =>
    match pathNamesF fuel st i with
    | Option.none => Option.none
    | some path =>
      match colPosF fuel st i with
      | Option.none => Option.none
      | some (c, st1) =>
        match leafDataGo fuel rest st1 with
        | Option.none => Option.none
        | some (tl, st2) => some ((path, c) :: tl, st2)

/-- The data-row loop of `map_rows` over precomputed leaf (path, column)
data: if the first leaf's normalized value is blank the sequence ends
(returning the records produced so far), otherwise every leaf's normalized
value is assigned into the row record with `dict_path_set` and the record is
yielded. `rowFuel` bounds the number of rows (the Python loop is unbounded,
and with an empty leaf list it would yield empty records forever — both
modelled as `none`). -/
def mapRowsGo (g : Grid) (ld : List (List String × Int)) :
    Nat → Int → Option (List (List (String × PyObj)))
  | 0, _ => Option.none
  | rowFuel + 1, row =>
    match ld with
    | [] => Option.none
    | (_, c0) :: _ =>
      if normalize (g row c0) = .blank then some []
      else
        match (ld.map (fun pc => (pc.1, normalize (g row pc.2)))).foldlM
            (fun acc pv => dict_path_set acc pv.1 pv.2) [] with
        | Option.none => Option.none
        | some d =>
          match mapRowsGo g ld rowFuel (row + 1) with
          | Option.none => Option.none
          | some tail => some (d :: tail)

/-- `SpreadsheetMapper.map_rows`: run `_verify_augment`, collect the leaves
(left to right) with their record paths and columns, then yield one nested
record per data row starting at `start_at` until the first row whose first
leaf's value is blank. -/
def map_rows (g : Grid) (st : VState) (start_at : Int) (rowFuel fuel : Nat) :
    Option (List (List (String × PyObj))) :=
  match verifyF g fuel st with
  | Option.none => Option.none
  | some (_, .raise) => Option.none
  | some (_, .ok st1) =>
    match leavesF fuel st1 st1.root with
    | Option.none => Option.none
    | some leaves =>
      match leafDataGo fuel leaves st1 with
      | Option.none => Option.none
      | some (ld, _) => mapRowsGo g ld rowFuel start_at

end Pyxl

namespace Pyxl

/-- Core behaviour of the data-row loop: with pairwise-independent nonempty
leaf paths, rows `row .. row+n-1` whose first-leaf value is non-blank and a
blank first-leaf value at `row+n`, the loop yields exactly `n` records, the
`i`-th of which binds every leaf path to that leaf's normalized value in row
`row+i`. -/
theorem mapRowsGo_spec (g : Grid) (p0 : List String) (c0 : Int)
    (rest : List (List String × Int)) :
    ∀ (n : Nat) (row : Int),
      List.Pairwise (fun a b => indepPath a.1 b.1) ((p0, c0) :: rest) →
      (∀ pc ∈ (p0, c0) :: rest, pc.1 ≠ []) →
      (∀ i : Nat, i < n → normalize (g (row + i) c0) ≠ .blank) →
      normalize (g (row + n) c0) = .blank →
      ∃ recs, mapRowsGo g ((p0, c0) :: rest) (n + 1) row = some recs ∧
        recs.length = n ∧
        ∀ i : Nat, i < n → ∃ d, recs.get? i = some d ∧
          ∀ pc ∈ (p0, c0) :: rest,
            lookupPath d pc.1 = some (.prim (normalize (g (row + i) pc.2))) := by
  intro n
  induction n with
  | zero =>
    intro row hpw hne hrows hstop
    have hstop' : normalize (g row c0) = .blank := by
      have harg : row + ((0 : Nat) : Int) = row := by omega
      rwa [harg] at hstop
    refine ⟨[], ?_, rfl, fun i hi => absurd hi (Nat.not_lt_zero i)⟩
    simp only [mapRowsGo]
    rw [if_pos hstop']
  | succ n ih =>
    intro row hpw hne hrows hstop
    have h0 : normalize (g row c0) ≠ .blank := by
      have harg : row + ((0 : Nat) : Int) = row := by omega
      have := hrows 0 (by omega)
      rwa [harg] at this
    have hitems_ne : ∀ pv ∈ ((p0, c0) :: rest).map
        (fun pc => (pc.1, normalize (g row pc.2))), pv.1 ≠ [] := by
      intro pv hpv
      rcases List.mem_map.mp hpv with ⟨pc, hpc, hpv2⟩
      rw [← hpv2]
      exact hne pc hpc
    have hitems_pw : List.Pairwise (fun a b => indepPath a.1 b.1)
        (((p0, c0) :: rest).map (fun pc => (pc.1, normalize (g row pc.2)))) := by
      rw [List.pairwise_map]
      exact hpw
    have hitems_settable : ∀ pv ∈ ((p0, c0) :: rest).map
        (fun pc => (pc.1, normalize (g row pc.2))), settable [] pv.1 = true :=
      fun pv hpv => settable_nil pv.1 (hitems_ne pv hpv)
    obtain ⟨d, hfold, hlook, _⟩ := foldSet_spec
      (((p0, c0) :: rest).map (fun pc => (pc.1, normalize (g row pc.2)))) []
      hitems_ne hitems_pw hitems_settable
    have hrows' : ∀ i : Nat, i < n → normalize (g (row + 1 + i) c0) ≠ .blank := by
      intro i hi
      have harg : row + ((i + 1 : Nat) : Int) = row + 1 + (i : Int) := by omega
      have := hrows (i + 1) (by omega)
      rwa [harg] at this
    have hstop' : normalize (g (row + 1 + n) c0) = .blank := by
      have harg : row + ((n + 1 : Nat) : Int) = row + 1 + (n : Int) := by omega
      rwa [harg] at hstop
    obtain ⟨recs', hrec', hlen', hget'⟩ := ih (row + 1) hpw hne hrows' hstop'
    refine ⟨d :: recs', ?_, by simp [hlen'], ?_⟩
    · generalize hm : n + 1 = m at hrec' ⊢
      simp only [mapRowsGo]
      rw [if_neg h0]
      simp only [hfold, hrec']
    · intro i hi
      match i with
      | 0 =>
        refine ⟨d, rfl, ?_⟩
        intro pc hpc
        have harg : row + ((0 : Nat) : Int) = row := by omega
        rw [harg]
        exact hlook (pc.1, normalize (g row pc.2))
          (List.mem_map.mpr ⟨pc, hpc, rfl⟩)
      | j + 1 =>
        obtain ⟨d2, hd2, hl2⟩ := hget' j (by omega)
        refine ⟨d2, by simpa using hd2, ?_⟩
        intro pc hpc
        have harg : row + ((j + 1 : Nat) : Int) = row + 1 + (j : Int) := by omega
        rw [harg]
        exact hl2 pc hpc

end Pyxl

namespace Pyxl

/-! ### Claim C6 -/

/-- C6: for a verified tree and starting row, `map_rows` yields exactly one
nested record per consecutive row starting at `start_at`, up to but
excluding the first row whose first leaf's normalized value is blank, where
it stops without raising; record `i` binds every leaf's key path (the
`output_name`s of its ancestors below the root) to that leaf's normalized
cell value in row `start_at + i`. The pairwise-independence hypothesis says
no leaf's key path is an initial segment of another's — without it two
leaves would fight over one slot and no implementation could bind both. -/
theorem map_rows_spec (g : Grid) (st : VState) (fuel : Nat) (tr : List Nat)
    (st1 : VState) (leaves : List Nat) (stX : VState) (p0 : List String)
    (c0 : Int) (rest : List (List String × Int)) (start_at : Int) (n : Nat)
    (hv : verifyF g fuel st = some (tr, .ok st1))
    (hl : leavesF fuel st1 st1.root = some leaves)
    (hd : leafDataGo fuel leaves st1 = some ((p0, c0) :: rest, stX))
    (hpw : List.Pairwise (fun a b => indepPath a.1 b.1) ((p0, c0) :: rest))
    (hne : ∀ pc ∈ (p0, c0) :: rest, pc.1 ≠ [])
    (hrows : ∀ i : Nat, i < n → normalize (g (start_at + i) c0) ≠ .blank)
    (hstop : normalize (g (start_at + n) c0) = .blank) :
    ∃ recs, map_rows g st start_at (n + 1) fuel = some recs ∧
      recs.length = n ∧
      ∀ i : Nat, i < n → ∃ d, recs.get? i = some d ∧
        ∀ pc ∈ (p0, c0) :: rest,
          lookupPath d pc.1 = some (.prim (normalize (g (start_at + i) pc.2))) := by
  obtain ⟨recs, h1, h2, h3⟩ :=
    mapRowsGo_spec g p0 c0 rest n start_at hpw hne hrows hstop
  refine ⟨recs, ?_, h2, h3⟩
  simp only [map_rows, hv, hl, hd]
  exact h1

/-! ### Claim C10 -/

/-- C10: a blank cell under a leaf other than the first does not terminate
the row sequence and is not omitted: the row's record still appears (the
sequence has its full length) and binds that leaf's key path to the blank
(None) value, while every other leaf's entry in the same record is
preserved with its own value. -/
theorem map_rows_blank_nonfirst_leaf (g : Grid) (st : VState) (fuel : Nat)
    (tr : List Nat) (st1 : VState) (leaves : List Nat) (stX : VState)
    (p0 : List String) (c0 : Int) (rest : List (List String × Int))
    (start_at : Int) (n : Nat) (pj : List String) (cj : Int) (i0 : Nat)
    (hv : verifyF g fuel st = some (tr, .ok st1))
    (hl : leavesF fuel st1 st1.root = some leaves)
    (hd : leafDataGo fuel leaves st1 = some ((p0, c0) :: rest, stX))
    (hpw : List.Pairwise (fun a b => indepPath a.1 b.1) ((p0, c0) :: rest))
    (hne : ∀ pc ∈ (p0, c0) :: rest, pc.1 ≠ [])
    (hrows : ∀ i : Nat, i < n → normalize (g (start_at + i) c0) ≠ .blank)
    (hstop : normalize (g (start_at + n) c0) = .blank)
    (hmem : (pj, cj) ∈ rest) (hi0 : i0 < n)
    (hblankj : g (start_at + i0) cj = .blank) :
    ∃ recs, map_rows g st start_at (n + 1) fuel = some recs ∧
      recs.length = n ∧
      ∃ d, recs.get? i0 = some d ∧
        lookupPath d pj = some (.prim .blank) ∧
        ∀ pc ∈ (p0, c0) :: rest,
          lookupPath d pc.1 = some (.prim (normalize (g (start_at + i0) pc.2))) := by
  obtain ⟨recs, h1, h2, h3⟩ :=
    mapRowsGo_spec g p0 c0 rest n start_at hpw hne hrows hstop
  obtain ⟨d, hd0, hlook⟩ := h3 i0 hi0
  refine ⟨recs, ?_, h2, d, hd0, ?_, hlook⟩
  · simp only [map_rows, hv, hl, hd]
    exact h1
  · have := hlook (pj, cj) (by simp [hmem])
    rwa [hblankj] at this

/-! Concrete witnesses for C6 and C10. -/

def stW6 : VState :=
  { root := 0
    cfgs := [(0, { raw_name := "Root", input_name := "", output_name := "root",
                   offRow := 0, offCol := 0, optional := false }),
             (1, { raw_name := "A", input_name := "A", output_name := "a",
                   offRow := 0, offCol := 0, optional := false }),
             (2, { raw_name := "B", input_name := "B", output_name := "b",
                   offRow := 0, offCol := 0, optional := false })]
    par := [(0, Option.none), (1, some 0), (2, some 0)]
    chs := [(0, [1, 2]), (1, []), (2, [])]
    colCache := []
    absCache := [] }

def gW6 : Grid := fun r c =>
  if r = 1 && c = 1 then .str "A"
  else if r = 1 && c = 2 then .str "B"
  else if r = 2 && c = 1 then .str "x"
  else if r = 2 && c = 2 then .str "y"
  else .blank

instance (p q : List String) : Decidable (indepPath p q) := by
  unfold indepPath
  infer_instance

/-- The state after a successful verification pass over `stW6`: the position
caches of all three nodes are warm. -/
def st1W6 : VState :=
  { stW6 with
      colCache := [(0, 1), (1, 1), (2, 2)]
      absCache := [(0, (0, 1)), (1, (1, 1)), (2, (1, 2))] }

set_option maxHeartbeats 1000000 in
/-- Witness for `map_rows_spec`: a two-leaf tree over a grid with one data
row and then a blank row yields exactly one record holding both values. -/
theorem map_rows_spec_witness :
    ∃ recs, map_rows gW6 stW6 2 2 12 = some recs ∧
      recs.length = 1 ∧
      ∀ i : Nat, i < 1 → ∃ d, recs.get? i = some d ∧
        ∀ pc ∈ [(["a"], (1 : Int)), (["b"], (2 : Int))],
          lookupPath d pc.1 = some (.prim (normalize (gW6 (2 + i) pc.2))) :=
  map_rows_spec gW6 stW6 12 [1, 2] st1W6 [1, 2] st1W6 ["a"] 1 [(["b"], 2)] 2 1
    (by rfl) (by rfl) (by rfl) (by decide) (by decide)
    (fun i hi => by
      have h0 : i = 0 := by omega
      subst h0
      decide)
    (by decide)

def stW10 : VState :=
  { root := 0
    cfgs := [(0, { raw_name := "Root", input_name := "", output_name := "root",
                   offRow := 0, offCol := 0, optional := false }),
             (1, { raw_name := "A", input_name := "A", output_name := "a",
                   offRow := 0, offCol := 0, optional := false }),
             (2, { raw_name := "B", input_name := "B", output_name := "b",
                   offRow := 0, offCol := 0, optional := false }),
             (3, { raw_name := "C", input_name := "C", output_name := "c",
                   offRow := 0, offCol := 0, optional := false })]
    par := [(0, Option.none), (1, some 0), (2, some 0), (3, some 0)]
    chs := [(0, [1, 2, 3]), (1, []), (2, []), (3, [])]
    colCache := []
    absCache := [] }

def gW10 : Grid := fun r c =>
  if r = 1 && c = 1 then .str "A"
  else if r = 1 && c = 2 then .str "B"
  else if r = 1 && c = 3 then .str "C"
  else if r = 2 && c = 1 then .str "x"
  else if r = 2 && c = 3 then .str "z"
  else .blank

def st1W10 : VState :=
  { stW10 with
      colCache := [(0, 1), (1, 1), (2, 2), (3, 3)]
      absCache := [(0, (0, 1)), (1, (1, 1)), (2, (1, 2)), (3, (1, 3))] }

set_option maxHeartbeats 1000000 in
/-- Witness for `map_rows_blank_nonfirst_leaf`: the middle leaf's cell is
blank in the data row; the record still appears, with the middle key bound
to the blank value and its siblings preserved. -/
theorem map_rows_blank_nonfirst_leaf_witness :
    ∃ recs, map_rows gW10 stW10 2 2 12 = some recs ∧
      recs.length = 1 ∧
      ∃ d, recs.get? 0 = some d ∧
        lookupPath d ["b"] = some (.prim .blank) ∧
        ∀ pc ∈ [(["a"], (1 : Int)), (["b"], (2 : Int)), (["c"], (3 : Int))],
          lookupPath d pc.1 = some (.prim (normalize (gW10 (2 + (0 : Nat)) pc.2))) :=
  map_rows_blank_nonfirst_leaf gW10 stW10 12 [1, 2, 3] st1W10 [1, 2, 3] st1W10
    ["a"] 1 [(["b"], 2), (["c"], 3)] 2 1 ["b"] 2 0
    (by rfl) (by rfl) (by rfl) (by decide) (by decide)
    (fun i hi => by
      have h0 : i = 0 := by omega
      subst h0
      decide)
    (by decide) (by decide) (by decide) (by decide)

end Pyxl

namespace Pyxl

/-! ### Claim C2 -/

/-- A tree whose root has three leaf children A, B, A — the first and third
have equal configs (`InternalConfig.__eq__` compares only the three name
fields). Such trees arise from inference on a one-row header A, B, A: merge
only compares a new chain against the LAST child, so the third A is appended
as a fresh sibling. -/
def stABA : VState :=
  { root := 0
    cfgs := [(0, { raw_name := "Root", input_name := "", output_name := "root",
                   offRow := 0, offCol := 0, optional := false }),
             (1, { raw_name := "A", input_name := "A", output_name := "a",
                   offRow := 0, offCol := 0, optional := false }),
             (2, { raw_name := "B", input_name := "B", output_name := "b",
                   offRow := 0, offCol := 0, optional := false }),
             (3, { raw_name := "A", input_name := "A", output_name := "a",
                   offRow := 0, offCol := 0, optional := false })]
    par := [(0, Option.none), (1, some 0), (2, some 0), (3, some 0)]
    chs := [(0, [1, 2, 3]), (1, []), (2, []), (3, [])]
    colCache := []
    absCache := [] }

/-- C2 (code bug, evaluated at the failing input): `column_pos` finds the
node's position with `index_of`, which uses Python `==` (value equality), so
the third child — config-equal to the first — is "found" at index 0, gets no
left sibling, and receives the parent-based column 1, duplicating the first
leaf's column. The claim's immediate-left-sibling formula gives column 3
(B's rightmost descendant column 2, plus offset 0, plus 1) and strictly
increasing leaf columns; the code yields columns 1, 2, 1. -/
theorem column_pos_duplicate_sibling_counterexample :
    leavesF 12 stABA 0 = some [1, 2, 3] ∧
    (leafDataGo 12 [1, 2, 3] stABA).map Prod.fst =
      some [(["a"], 1), (["b"], 2), (["a"], 1)] ∧
    (colPosF 12 stABA 3).map Prod.fst = some 1 ∧
    ¬ (colPosF 12 stABA 3).map Prod.fst = some 3 := by
  exact ⟨rfl, rfl, rfl, by decide⟩

/-! ### Claim C3 -/

def stC3 : VState :=
  { root := 0
    cfgs := [(0, { raw_name := "Root", input_name := "", output_name := "root",
                   offRow := 0, offCol := 0, optional := false }),
             (1, { raw_name := "X", input_name := "X", output_name := "x",
                   offRow := 0, offCol := 0, optional := true }),
             (2, { raw_name := "Y", input_name := "Y", output_name := "y",
                   offRow := 0, offCol := 0, optional := false })]
    par := [(0, Option.none), (1, some 0), (2, some 1)]
    chs := [(0, [1]), (1, [2]), (2, [])]
    colCache := []
    absCache := [] }

def gC3 : Grid := fun r c =>
  if r = 1 && c = 1 then .str "WRONG"
  else if r = 2 && c = 1 then .str "ALSO"
  else .blank

/-- C3 counterexample: the optional node X at (1,1) mismatches and is
detached; per the claim its subtree is discarded entirely — no node of it is
compared and verification continues with the remaining tree (here: only the
root, so it would succeed). The code still visits X's child Y, reads the
grid for it at (2,1) — note the trace [1, 2] — and raises because that cell
is a non-blank mismatch. -/
theorem verify_detached_subtree_still_compared_counterexample :
    verifyF gC3 12 stC3 = some ([1, 2], VerifyOutcome.raise) := by rfl

/-- The state after X's position was computed and cached during its visit. -/
def stC3a : VState :=
  match absPosF 12 stC3 1 with
  | some (_, s) => s
  | Option.none => stC3

/-- The state after X was detached: removed from the root's children, its
parent reference cleared; X's cached position survives. -/
def stC3b : VState :=
  { stC3a with chs := aset stC3a.chs 0 [], par := aset stC3a.par 1 Option.none }

/-- The state after Y's position was computed (through X's stale cache). -/
def stC3d : VState :=
  match absPosF 12 (clearCaches stC3b 2) 2 with
  | some (_, s) => s
  | Option.none => stC3b

/-- C3 amended: when the optional node X's cell mismatches (any value other
than its label), X is detached from its parent's children — so neither X nor
its subtree appears in the resulting tree (the root's children end up
empty) — but iteration still visits X's child Y and compares it against the
grid (Y is in the comparison trace), at a position computed from X's stale
cached position; verification continues only if that comparison tolerates
(match or blank), and otherwise raises. -/
theorem verify_detached_subtree_amended (g : Grid)
    (hx : normalize (g 1 1) ≠ CellValue.str "X") :
    ∃ tr r, verifyF g 12 stC3 = some (tr, r) ∧ 2 ∈ tr ∧
      (∀ st', r = VerifyOutcome.ok st' → alookup st'.chs 0 = some []) := by
  have h1 : verifyF g 12 stC3 =
      (if normalize (g 1 1) = CellValue.str "X"
        then verifyGo g 12 [2] stC3a false [1]
        else verifyGo g 12 [2] stC3b true [1]) := rfl
  rw [h1, if_neg hx]
  have h2 : verifyGo g 12 [2] stC3b true [1] =
      (if normalize (g 2 1) = CellValue.str "Y"
        then some ([1, 2], VerifyOutcome.ok stC3d)
        else if normalize (g 2 1) = CellValue.blank
          then some ([1, 2], VerifyOutcome.ok stC3d)
          else some ([1, 2], VerifyOutcome.raise)) := rfl
  rw [h2]
  by_cases hy : normalize (g 2 1) = CellValue.str "Y"
  · rw [if_pos hy]
    exact ⟨[1, 2], _, rfl, by decide, fun st' h => by cases h; rfl⟩
  · rw [if_neg hy]
    by_cases hb : normalize (g 2 1) = CellValue.blank
    · rw [if_pos hb]
      exact ⟨[1, 2], _, rfl, by decide, fun st' h => by cases h; rfl⟩
    · rw [if_neg hb]
      exact ⟨[1, 2], _, rfl, by decide, fun st' h => by cases h⟩

/-- Witness for `verify_detached_subtree_amended` at the concrete grid. -/
theorem verify_detached_subtree_amended_witness :
    ∃ tr r, verifyF gC3 12 stC3 = some (tr, r) ∧ 2 ∈ tr ∧
      (∀ st', r = VerifyOutcome.ok st' → alookup st'.chs 0 = some []) :=
  verify_detached_subtree_amended gC3 (by decide)

end Pyxl

namespace Pyxl

/-! ### TypescriptFormatter name assignment (formatters.py) -/

/-- What the alias pass of `TypescriptFormatter.format` reads off each node
of the preorder traversal: its `qualified_name`, its parent's
`qualified_name` (`none` when `node.parent is None`), its raw name and
whether it is a leaf. -/
structure TSEntry where
  qname : String
  parentQ : Option String
  raw : String
  leaf : Bool
deriving DecidableEq, Repr

/-- `qualified_name`: dot-joined `output_name`s below the root. -/
def qnameOf (names : List String) : String := String.intercalate "." names

/-- Preorder `TSEntry` list of a tree (fuel bounds the depth). -/
def entriesF : Nat → MapperNode → List String → Option String → List TSEntry
  | 0, _, _, _ => []
  | fuel + 1, .mk cfg cs, names, parentQ =>
    { qname := qnameOf names, parentQ := parentQ, raw := cfg.raw_name,
      leaf := cs.isEmpty } ::
    (cs.map (fun c =>
      entriesF fuel c (names ++ [c.config.output_name]) (some (qnameOf names)))).join

def sget : List (String × String) → String → Option String
  | [], _ => Option.none
  | (k, v) :: t, q => if k = q then some v else sget t q

def sset : List (String × String) → String → String → List (String × String)
  | [], q, v => [(q, v)]
  | (k, w) :: t, q, v => if k = q then (q, v) :: t else (k, w) :: sset t q v

/-- One iteration of the alias-assignment loop of
`TypescriptFormatter.format`: leaves are filtered out; the node's display
name is `class_name_from_str(raw_name)` unless that name is already among
the assigned values, in which case the node gets its parent's assigned
alias (a KeyError — `none` — if the parent has none assigned) concatenated
with its own name, the literal "Root" standing in only when the node itself
has no parent. -/
def aliasStep (acc : Option (List (String × String))) (e : TSEntry) :
    Option (List (String × String)) :=
  match acc with
  | Option.none => Option.none
  | some a =>
    if e.leaf then some a
    else
      match class_name_from_str e.raw with
      | Option.none => Option.none
      | some tn =>
        if (a.map Prod.snd).contains tn then
          match e.parentQ with
          | some pq =>
            match sget a pq with
            | Option.none => Option.none
            | some pa => some (sset a e.qname (pa ++ tn))
          | Option.none => some (sset a e.qname ("Root" ++ tn))
        else some (sset a e.qname tn)

/-- The whole alias pass (`aliases` keyed by `qualified_name`). -/
def assignAliases (fuel : Nat) (t : MapperNode) : Option (List (String × String)) :=
  (entriesF fuel t [] Option.none).foldl aliasStep (some [])

/-! ### Claim C9 -/

/-- Tree for the C9 counterexample: root Top with children Other (whose
child Dup is a non-leaf) and a second non-leaf Dup directly under the
root. The deeper Dup is assigned first, so the root's Dup child collides. -/
def tC9 : MapperNode :=
  .mk { raw_name := "Top", offset := (0, 0), output_name := "top" }
    [.mk { raw_name := "Other", offset := (0, 0), output_name := "other" }
      [.mk { raw_name := "Dup", offset := (0, 0), output_name := "dup" }
        [.mk { raw_name := "L1", offset := (0, 0), output_name := "l1" } []]],
     .mk { raw_name := "Dup", offset := (0, 0), output_name := "dup" }
      [.mk { raw_name := "L2", offset := (0, 0), output_name := "l2" } []]]

/-- C9 counterexample: the colliding node "Dup" is a child of the tree root,
yet its assigned name is "TopDup" — the root's assigned display name
concatenated with its own — not the claim's literal "RootDup": the "Root"
fallback fires only when the node itself has no parent. -/
theorem ts_alias_root_child_counterexample :
    assignAliases 10 tC9 =
      some [("", "Top"), ("other", "Other"), ("other.dup", "Dup"),
        ("dup", "TopDup")] ∧
    ("TopDup" : String) ≠ "RootDup" := by
  exact ⟨by rfl, by decide⟩

theorem string_eq_empty_of_length_zero (s : String) (h : s.length = 0) :
    s = "" := by
  cases s with
  | mk data =>
    cases data with
    | nil => rfl
    | cons c t => simp [String.length] at h

theorem append_ne_of_ne_empty (pa tn : String) (h : pa ≠ "") :
    pa ++ tn ≠ tn := by
  intro he
  have hlen := congrArg String.length he
  rw [String.length_append] at hlen
  have hz : pa.length = 0 := by omega
  exact h (string_eq_empty_of_length_zero pa hz)

/-- C9 amended: in the one-pass name assignment, a non-leaf node whose
derived display name is already assigned receives its PARENT'S ASSIGNED name
concatenated with its own derived name — for a child of the root that is the
root's display name, not the literal "Root"; the literal "Root" prefix is
used only when the colliding node itself has no parent. The qualified name
differs from the colliding derived name whenever the prefix is nonempty, but
global uniqueness is not re-checked. -/
theorem aliasStep_collision_amended (a : List (String × String)) (e : TSEntry)
    (tn : String)
    (hleaf : e.leaf = false)
    (htn : class_name_from_str e.raw = some tn)
    (hcoll : (a.map Prod.snd).contains tn = true) :
    (∀ pq pa, e.parentQ = some pq → sget a pq = some pa →
      aliasStep (some a) e = some (sset a e.qname (pa ++ tn)) ∧
        (pa ≠ "" → pa ++ tn ≠ tn)) ∧
    (e.parentQ = Option.none →
      aliasStep (some a) e = some (sset a e.qname ("Root" ++ tn)) ∧
        "Root" ++ tn ≠ tn) := by
  constructor
  · intro pq pa hpq hpa
    refine ⟨?_, fun hne => append_ne_of_ne_empty pa tn hne⟩
    simp only [aliasStep, hleaf, htn, hcoll, hpq, hpa]
    simp
  · intro hpq
    refine ⟨?_, append_ne_of_ne_empty "Root" tn (by decide)⟩
    simp only [aliasStep, hleaf, htn, hcoll, hpq]
    simp

/-- Witness for `aliasStep_collision_amended`: the state just before the
root's "Dup" child is processed in `tC9`. -/
theorem aliasStep_collision_amended_witness :
    aliasStep (some [("", "Top"), ("other", "Other"), ("other.dup", "Dup")])
        { qname := "dup", parentQ := some "", raw := "Dup", leaf := false } =
      some [("", "Top"), ("other", "Other"), ("other.dup", "Dup"),
        ("dup", "TopDup")] ∧
    ("Top" : String) ++ "Dup" ≠ "Dup" := by
  have h := (aliasStep_collision_amended
    [("", "Top"), ("other", "Other"), ("other.dup", "Dup")]
    { qname := "dup", parentQ := some "", raw := "Dup", leaf := false }
    "Dup" rfl (by rfl) (by decide)).1 "" "Top" rfl (by rfl)
  exact ⟨h.1.trans (by rfl), h.2 (by decide)⟩

end Pyxl
